import Mathlib

/-
Verification of the status-line rendering engine of `pv` (src/pv/display.c)
against its natural-language specification.  The definitions below are a
shallow embedding of the C code: `long double` arithmetic is modelled by
exact rationals, C integer types by `Int`/`Nat` (C `/` on signed integers
truncates toward zero, modelled by `Int.tdiv`), and the fixed-capacity
buffers and index arithmetic are carried over literally.
-/

namespace PV

/-- Truncation of a rational toward zero, as a C cast from `long double`
to an integer type behaves. -/
def ratTrunc (q : ℚ) : ℤ := q.num.tdiv (q.den : ℤ)

/-- `bound_long` from display.c: clamp `x` into `[lo..hi]`. -/
def bound_long (x lo hi : ℤ) : ℤ := if x < lo then lo else if hi < x then hi else x

/-- `pv__calc_percentage` from display.c: `so_far * 100 / total`, `0` when
`total < 1` (C `long long` division truncates toward zero). -/
def pv__calc_percentage (so_far total : ℤ) : ℤ :=
  if total < 1 then 0 else (so_far * 100).tdiv total

/-- `pv__calc_eta` from display.c: `0` if fewer than one unit transferred or
the rate is zero, otherwise `(total - so_far) / rate` with C truncating
division. -/
def pv__calc_eta (so_far total rate : ℤ) : ℤ :=
  if so_far < 1 ∨ rate = 0 then 0 else (total - so_far).tdiv rate

/-- The rate-smoothing carry of `pvstate_t`: `prev_elapsed_sec`,
`prev_trans`, `prev_rate` (display.c lines 525-540). -/
structure SmoothState where
  prev_elapsed_sec : ℚ
  prev_trans : ℤ
  prev_rate : ℚ
deriving DecidableEq

/-- One sample of the average-rate history window. -/
structure HistEntry where
  elapsed_sec : ℚ
  total_bytes : ℤ
deriving DecidableEq

/-- The average-rate window state of `pvstate_t`: the circular sample
buffer with its `first`/`last` indices, configured length and minimum
interval, and the current average rate. -/
structure HistState where
  history : List HistEntry
  history_first : ℕ
  history_last : ℕ
  history_len : ℕ
  history_interval : ℚ
  current_avg_rate : ℚ
deriving DecidableEq

/-- `update_history_avg_rate` from display.c: append a sample to the
circular buffer when enough time has passed since the stored last sample
(advancing `first` past the oldest entry when the buffer is full), then
recompute the average rate from the oldest and newest retained samples. -/
def update_history_avg_rate (s : HistState) (total_bytes : ℤ) (elapsed_sec : ℚ) (rate : ℚ) :
    HistState :=
  if s.history = [] then s
  else
    let last_elapsed := (s.history.getD s.history_last ⟨0, 0⟩).elapsed_sec
    if 0 < last_elapsed ∧ elapsed_sec < last_elapsed + s.history_interval then s
    else
      let last2 := if 0 < last_elapsed then (s.history_last + 1) % s.history_len
        else s.history_last
      let first2 := if 0 < last_elapsed ∧ last2 = s.history_first then
          (s.history_first + 1) % s.history_len
        else s.history_first
      let hist2 := s.history.set last2 ⟨elapsed_sec, total_bytes⟩
      let avg :=
        if first2 = last2 then rate
        else
          (((hist2.getD last2 ⟨0, 0⟩).total_bytes - (hist2.getD first2 ⟨0, 0⟩).total_bytes : ℤ) : ℚ) /
            ((hist2.getD last2 ⟨0, 0⟩).elapsed_sec - (hist2.getD first2 ⟨0, 0⟩).elapsed_sec)
      { s with history := hist2, history_first := first2, history_last := last2,
               current_avg_rate := avg }

/-- The rate-computation part of `pv__format` (display.c lines 525-558):
the rate smoother, the history update, and the final-update override that
replaces both displayed rates with a whole-run average.  Returns the new
smoother state, the new history state, the displayed instantaneous rate
and the displayed average rate. -/
def pv__format_rates (s : SmoothState) (h : HistState) (off : ℤ) (elapsed_sec : ℚ)
    (bytes_since_last total_bytes : ℤ) : SmoothState × HistState × ℚ × ℚ :=
  let time_since_last := elapsed_sec - s.prev_elapsed_sec
  let sr : SmoothState × ℚ :=
    if time_since_last ≤ 1 / 100 then
      ({ s with prev_trans := s.prev_trans + bytes_since_last }, s.prev_rate)
    else
      let rate := ((bytes_since_last : ℚ) + (s.prev_trans : ℚ)) / time_since_last
      (⟨elapsed_sec, 0, rate⟩, rate)
  let h2 := update_history_avg_rate h total_bytes elapsed_sec sr.2
  if bytes_since_last < 0 then
    let es2 := if elapsed_sec < 1 / 1000000 then 1 / 1000000 else elapsed_sec
    let fr := ((total_bytes : ℚ) - (off : ℚ)) / es2
    (sr.1, h2, fr, fr)
  else
    (sr.1, h2, sr.2, h2.current_avg_rate)

/-- The unknown-size percentage update of `pv__format` (display.c lines
560-580): with unknown total size the saved counter advances by 2 whenever
the rate is positive and wraps to 0 past 199; with a known size it is the
computed percentage when numeric mode or a progress bar wants it. -/
def percentageStep (size : ℤ) (numeric progressUsed : Bool) (percentage : ℤ)
    (rate : ℚ) (total_bytes : ℤ) : ℤ :=
  if size ≤ 0 then
    let p := if 0 < rate then percentage + 2 else percentage
    if 199 < p then 0 else p
  else if numeric || progressUsed then pv__calc_percentage total_bytes size
  else percentage

/-- Two-digit zero-padded decimal rendering, as C `%02ld` produces for the
minute/second/hour fields (all below 100 at their call sites). -/
def pad2 (n : ℕ) : List Char :=
  if n < 10 then '0' :: Nat.toDigits 10 n else Nat.toDigits 10 n

/-- The ETA countdown text of `pv__format` (display.c lines 764-773):
"ETA d:hh:mm:ss" past one day, otherwise "ETA h:mm:ss". -/
def etaFormat (eta : ℤ) : List Char :=
  let e := eta.toNat
  if 86400 < eta then
    ['E', 'T', 'A', ' '] ++ Nat.toDigits 10 (e / 86400) ++
      ':' :: pad2 ((e / 3600) % 24) ++ ':' :: pad2 ((e / 60) % 60) ++ ':' :: pad2 (e % 60)
  else
    ['E', 'T', 'A', ' '] ++ Nat.toDigits 10 (e / 3600) ++
      ':' :: pad2 ((e / 60) % 60) ++ ':' :: pad2 (e % 60)

/-- The ETA value that `pv__format` renders (display.c lines 750-758):
`pv__calc_eta` on the offset-adjusted amounts, with the average rate cast
to `long` (truncation), clamped into `[0, 360000000]`. -/
def etaDisplayedVal (size total_bytes off : ℤ) (avg : ℚ) : ℤ :=
  bound_long (pv__calc_eta (total_bytes - off) (size - off) (ratTrunc avg)) 0 360000000

/-- The `str_eta` buffer contents after the ETA block of `pv__format`
(display.c lines 747-785): empty unless the ETA component is active and
the total size is known positive; blanked to spaces of the same width on a
final update. -/
def mkStrEta (etaActive : Bool) (size total_bytes off : ℤ) (avg : ℚ)
    (finalUpdate : Bool) : List Char :=
  if etaActive ∧ 0 < size then
    let s := etaFormat (etaDisplayedVal size total_bytes off avg)
    if finalUpdate then s.map (fun _ => ' ') else s
  else []

/-- The `str_fineta` buffer contents after the absolute-ETA block of
`pv__format` (display.c lines 787-843).  The `localtime`/`strftime` pair
is abstracted as the oracle `ltime`, mapping the clamped ETA to its
rendered local-time text, or `none` when the calendar conversion fails
(in which case the buffer, still empty, is blanked in place). -/
def mkStrFineta (finetaActive : Bool) (size total_bytes off : ℤ) (avg : ℚ)
    (ltime : ℤ → Option (List Char)) : List Char :=
  if finetaActive ∧ 0 < size then
    let eta := bound_long (pv__calc_eta (total_bytes - off) (size - off) (ratTrunc avg))
      0 360000000
    match ltime eta with
    | some t => ['E', 'T', 'A', ' '] ++ t
    | none => []
  else []

/-- The SI prefix table "yzafpnum kMGTPEZY" of `pv__si_prefix`
(display.c line 165), centred at the blank (no prefix). -/
def siTable : List Char :=
  ['y', 'z', 'a', 'f', 'p', 'n', 'u', 'm', ' ', 'k', 'M', 'G', 'T', 'P', 'E', 'Z', 'Y']

/-- The first loop of `pv__si_prefix` (display.c line 202): divide by the
ratio while the value exceeds the cutoff, advancing up the table; the fuel
bounds the table walk and is always at least the table length at call
sites.  Returns the value, the final table index and the prefix letter. -/
def upLoop (rbase cutoff : ℚ) (fuel : ℕ) (v : ℚ) (i : ℕ) (pfx : Char) : ℚ × ℕ × Char :=
  match fuel with
  | 0 => (v, i, pfx)
  | Nat.succ f =>
    if cutoff < v ∧ i + 1 < siTable.length then
      upLoop rbase cutoff f (v / rbase) (i + 1) (siTable.getD (i + 1) ' ')
    else (v, i, pfx)

/-- The second loop of `pv__si_prefix` (display.c line 207): multiply by
the ratio while the value is below one, descending the table. -/
def downLoop (rbase : ℚ) (fuel : ℕ) (v : ℚ) (i : ℕ) (pfx : Char) : ℚ × ℕ × Char :=
  match fuel with
  | 0 => (v, i, pfx)
  | Nat.succ f =>
    if v < 1 ∧ 1 ≤ i then
      downLoop rbase f (v * rbase) (i - 1) (siTable.getD (i - 1) ' ')
    else (v, i, pfx)

/-- `pv__si_prefix` from display.c (named `pv__si_scale` here): scale a
magnitude by repeated division/multiplication by the ratio, returning the
scaled magnitude and the prefix letter (blank when no prefix applies).
Zero short-circuits to a blank prefix. -/
def pv__si_scale (rbase : ℚ) (value : ℚ) : ℚ × Char :=
  if value = 0 then (value, ' ')
  else
    let cutoff := rbase * (97 / 100)
    let u := upLoop rbase cutoff siTable.length value 8 ' '
    let d := downLoop rbase siTable.length u.1 u.2.1 u.2.2
    (d.1, d.2.2)

/-- The percentage text `%2ld%%` printed after the determinate bar
(display.c line 877). -/
def pctChars (p : ℕ) : List Char :=
  (if p < 10 then [' '] else []) ++ Nat.toDigits 10 p ++ ['%']

/-- The determinate progress bar of `pv__format` (display.c lines
870-899), as a function of the computed available width and the (already
clamped, non-negative) percentage: the `[`, the fill loop (which counts
`i` up to `available_width * percentage / 100 - 1` and appends a fill
character while `i` is within the width), the `>` marker if still within
the width, spaces to the width, then `] ` and the percentage. -/
def pv__bar_known (w p : ℕ) : List Char :=
  let f := w * p / 100
  let part1 := (List.range (f - 1)).filterMap (fun i => if i < w then some '=' else none)
  let afterMarker : List Char × ℕ :=
    if f - 1 < w then (part1 ++ ['>'], (f - 1) + 1) else (part1, f - 1)
  '[' :: (afterMarker.1 ++ List.replicate (w - afterMarker.2) ' ' ++
    ']' :: ' ' :: pctChars p)

/-- One compiled-and-rendered segment as the assembly loop of
`pv__format` sees it: the current contents of the referenced string and
the compiled `length` field (positive for constant text, zero or negative
for a computed field measured with `strlen`). -/
structure OutSeg where
  text : List Char
  length : ℤ
deriving DecidableEq

/-- The display length the assembly loop computes for a segment. -/
def segDisplayLen (g : OutSeg) : ℤ :=
  if 0 < g.length then g.length else (g.text.length : ℤ)

/-- What a segment contributes when it is emitted whole. -/
def segEmit (g : OutSeg) : List Char :=
  if 0 < g.length then g.text.take g.length.toNat else g.text

/-- The line-assembly loop of `pv__format` (display.c lines 937-962):
concatenate the segments in order, skipping empty ones; a segment that
would overflow the buffer capacity less two is truncated to the remaining
capacity, after which a non-positive truncated length stops the loop; a
segment that would exceed the terminal width stops the loop before being
emitted. -/
def assembleLoop (bufsize width : ℤ) : List OutSeg → List Char → List Char
  | [], acc => acc
  | g :: rest, acc =>
    let slen := segDisplayLen g
    if slen = 0 then assembleLoop bufsize width rest acc
    else
      let slen2 := if bufsize - 2 < slen + (acc.length : ℤ) then
          bufsize - (acc.length : ℤ) - 2
        else slen
      if slen2 < 1 then acc
      else if width < slen2 + (acc.length : ℤ) then acc
      else assembleLoop bufsize width rest (acc ++ g.text.take slen2.toNat)

/-- The trailing-space stabilization of `pv__format` (display.c lines
964-986): when the new line is shorter than the previous one and the
terminal width has not shrunk, append up to 15 spaces; returns the final
line together with the updated `prev_length` and `prev_width`. -/
def stabilizeLine (prev_length prev_width width : ℤ) (line : List Char) :
    List Char × ℤ × ℤ :=
  let output_length : ℤ := line.length
  if output_length < prev_length ∧ prev_width ≤ width then
    let s := prev_length - output_length
    let s2 := if 15 < s then 15 else s
    (line ++ List.replicate s2.toNat ' ', output_length + s2, width)
  else (line, output_length, width)

/-- A compiled format segment of `pv__format_init`: a constant literal or
one of the computed fields (the `%A` field records its parsed width
argument). -/
inductive FmtSeg where
  | lit : List Char → FmtSeg
  | progress : FmtSeg
  | timer : FmtSeg
  | eta : FmtSeg
  | fineta : FmtSeg
  | outputbuf : ℕ → FmtSeg
  | rate : FmtSeg
  | avgrate : FmtSeg
  | transferred : FmtSeg
  | bufpercent : FmtSeg
  | name : FmtSeg
deriving DecidableEq

/-- The width-argument accumulator of `pv__format_init` (display.c lines
337-342): `num = num * 10 + digit` on a C `unsigned int`, which wraps
modulo 2^32. -/
def pvParseNum (digits : List Char) : ℕ :=
  digits.foldl (fun n c => (n * 10 + (c.toNat - 48)) % 4294967296) 0

/-- The directive dispatch of `pv__format_init` (display.c lines
343-415): the switch on the character following `%` and any digits.  An
unrecognized character yields the two source characters starting one
before it (the last width digit when one was given, else the `%`). -/
def directiveSeg (digits : List Char) (d : Char) : FmtSeg :=
  if d = 'p' then .progress
  else if d = 't' then .timer
  else if d = 'e' then .eta
  else if d = 'I' then .fineta
  else if d = 'A' then .outputbuf (pvParseNum digits)
  else if d = 'r' then .rate
  else if d = 'a' then .avgrate
  else if d = 'b' then .transferred
  else if d = 'T' then .bufpercent
  else if d = 'N' then .name
  else if d = '%' then .lit ['%']
  else .lit [digits.getLastD '%', d]

/-- The segment-splitting loop of `pv__format_init` (display.c lines
332-428), starting at segment index `seg`: the loop runs while characters
remain and fewer than 99 segments have been produced; a `%` consumes any
digits and dispatches on the next character (end of string yields a
single literal character, the one before the terminator); other text runs
to the next `%` as one literal segment. -/
def compileFrom (seg : ℕ) (s : List Char) : List FmtSeg :=
  match s with
  | [] => []
  | c :: rest =>
    if 99 ≤ seg then []
    else if hc : c = '%' then
      let rest2 := rest.dropWhile Char.isDigit
      if hr : rest2 = [] then [FmtSeg.lit [(rest.takeWhile Char.isDigit).getLastD '%']]
      else
        directiveSeg (rest.takeWhile Char.isDigit) (rest2.head hr) ::
          compileFrom (seg + 1) rest2.tail
    else
      FmtSeg.lit ((c :: rest).takeWhile (fun x => x ≠ '%')) ::
        compileFrom (seg + 1) ((c :: rest).dropWhile (fun x => x ≠ '%'))
termination_by s.length
decreasing_by
  · have h1 : (rest.dropWhile Char.isDigit).length ≤ rest.length :=
      (List.dropWhile_suffix Char.isDigit).length_le
    have h2 : 0 < (rest.dropWhile Char.isDigit).length := List.length_pos.mpr hr
    simp only [List.length_tail, List.length_cons]
    omega
  · simp only [List.dropWhile_cons, hc, List.length_cons]
    have h1 : (rest.dropWhile (fun x => x ≠ '%')).length ≤ rest.length :=
      (List.dropWhile_suffix (fun x => x ≠ '%')).length_le
    have hx : (fun x => decide (x ≠ '%')) c = true := by
      simp [hc]
    simp only [hx, if_pos]
    omega

/-- `pv__format_init` at the top level: compile a whole format string. -/
def compileFormat (s : List Char) : List FmtSeg := compileFrom 0 s

/-- Claim C1: for a non-final render (`bytes_since_last ≥ 0`), when no more
than 0.01 seconds have passed since the last rate update the displayed
instantaneous rate is the previous rate, the carried amount grows by the
new delta and the last-update time is unchanged; otherwise the rate is
the carried-plus-new amount over the elapsed interval, the carry resets
to zero and the last-update time becomes the current elapsed time.  On a
final update (`bytes_since_last < 0`) both displayed rates equal
`(total_bytes - initial_offset) / max elapsed_sec 0.000001`. -/
theorem C1_rate_smoother (s : SmoothState) (h : HistState) (off : ℤ) (es : ℚ) (b tb : ℤ) :
    (0 ≤ b → es - s.prev_elapsed_sec ≤ 1 / 100 →
      (pv__format_rates s h off es b tb).2.2.1 = s.prev_rate ∧
      (pv__format_rates s h off es b tb).1.prev_trans = s.prev_trans + b ∧
      (pv__format_rates s h off es b tb).1.prev_elapsed_sec = s.prev_elapsed_sec) ∧
    (0 ≤ b → ¬(es - s.prev_elapsed_sec ≤ 1 / 100) →
      (pv__format_rates s h off es b tb).2.2.1 =
        ((s.prev_trans : ℚ) + (b : ℚ)) / (es - s.prev_elapsed_sec) ∧
      (pv__format_rates s h off es b tb).1.prev_trans = 0 ∧
      (pv__format_rates s h off es b tb).1.prev_elapsed_sec = es) ∧
    (b < 0 →
      (pv__format_rates s h off es b tb).2.2.1 =
        ((tb : ℚ) - (off : ℚ)) / max es (1 / 1000000) ∧
      (pv__format_rates s h off es b tb).2.2.2 =
        ((tb : ℚ) - (off : ℚ)) / max es (1 / 1000000)) := by
  have hmax : (if es < 1 / 1000000 then (1 / 1000000 : ℚ) else es) = max es (1 / 1000000) := by
    rcases lt_or_le es (1 / 1000000) with hlt | hle
    · rw [if_pos hlt, max_eq_right hlt.le]
    · rw [if_neg (not_lt.mpr hle), max_eq_left hle]
  refine ⟨?_, ?_, ?_⟩
  · intro hb hsm
    have hnb : ¬ b < 0 := by omega
    simp only [pv__format_rates, if_pos hsm, if_neg hnb]
    refine ⟨?_, ?_, ?_⟩ <;> trivial
  · intro hb hsm
    have hnb : ¬ b < 0 := by omega
    simp only [pv__format_rates, if_neg hsm, if_neg hnb]
    refine ⟨?_, ?_, ?_⟩ <;> first | trivial | rfl | ring
  · intro hb
    simp only [pv__format_rates, if_pos hb, hmax]
    refine ⟨?_, ?_⟩ <;> trivial

/-- A concrete history state for witnesses. -/
def histW : HistState := ⟨[⟨0, 0⟩, ⟨0, 0⟩], 0, 0, 2, 1, 0⟩

/-- Witness for C1: a concrete non-final render past the 0.01s threshold
produces rate (3 + 5) / (2 - 1) = 8. -/
theorem C1_rate_smoother_witness :
    (pv__format_rates ⟨1, 3, 4⟩ histW 0 2 5 100).2.2.1 = 8 := by
  have h := (C1_rate_smoother ⟨1, 3, 4⟩ histW 0 2 5 100).2.1 (by decide) (by norm_num)
  rw [h.1]; norm_num

/-- Claim C3: with unknown total size the saved percentage counter
advances by 2 and wraps past 199 whenever the rate is positive (so from 0
it walks the even values 0,2,…,198 cyclically: after n positive-rate
renders it reads 2n mod 200), and is unchanged whenever the rate is 0. -/
theorem C3_percentage_oscillator :
    (∀ (size : ℤ) (numeric progressUsed : Bool) (p : ℤ) (rate : ℚ) (tb : ℤ),
      size ≤ 0 → 0 < rate → 0 ≤ p → p ≤ 198 →
      percentageStep size numeric progressUsed p rate tb = (p + 2) % 200) ∧
    (∀ (size : ℤ) (numeric progressUsed : Bool) (p : ℤ) (rate : ℚ) (tb : ℤ),
      size ≤ 0 → rate = 0 → p ≤ 199 →
      percentageStep size numeric progressUsed p rate tb = p) ∧
    (∀ (size : ℤ) (numeric progressUsed : Bool) (rate : ℚ) (tb : ℤ),
      size ≤ 0 → 0 < rate → ∀ n : ℕ,
      (fun p => percentageStep size numeric progressUsed p rate tb)^[n] 0 =
        (2 * (n : ℤ)) % 200) := by
  refine ⟨?_, ?_, ?_⟩
  · intro size numeric progressUsed p rate tb hsz hr hp0 hp198
    simp only [percentageStep, if_pos hsz, if_pos hr]
    split_ifs with h1 <;> omega
  · intro size numeric progressUsed p rate tb hsz hr hp
    have hnr : ¬ (0 : ℚ) < rate := by rw [hr]; exact lt_irrefl 0
    simp only [percentageStep, if_pos hsz, if_neg hnr]
    rw [if_neg (by omega)]
  · intro size numeric progressUsed rate tb hsz hr n
    induction n with
    | zero => simp
    | succ n ih =>
      rw [Function.iterate_succ_apply', ih]
      simp only [percentageStep, if_pos hsz, if_pos hr]
      have h200 : (0 : ℤ) ≤ 2 * (n : ℤ) % 200 ∧ 2 * (n : ℤ) % 200 < 200 := by
        constructor <;> omega
      push_cast
      split_ifs with h1 <;> omega

/-- Witness for C3: one positive-rate render from counter 4 yields 6. -/
theorem C3_percentage_oscillator_witness :
    percentageStep 0 false false 4 1 0 = 6 := by
  have h := C3_percentage_oscillator.1 0 false false 4 1 0 (by decide) (by decide)
    (by decide) (by decide)
  rw [h]; decide

/-- Claim C4: the relative ETA is 0 when fewer than one unit is done or
the rate is zero, otherwise (total - done) / rate truncated; the rendered
ETA value is clamped into [0, 360000000]; on a final update the ETA field
is the normal ETA string with every character replaced by a space (same
width, all blanks). -/
theorem C4_eta (size tb off : ℤ) (avg : ℚ) :
    (∀ so_far total rate : ℤ,
      (so_far < 1 ∨ rate = 0 → pv__calc_eta so_far total rate = 0) ∧
      (1 ≤ so_far → rate ≠ 0 → pv__calc_eta so_far total rate = (total - so_far).tdiv rate)) ∧
    (0 ≤ etaDisplayedVal size tb off avg ∧ etaDisplayedVal size tb off avg ≤ 360000000) ∧
    (0 < size →
      mkStrEta true size tb off avg true =
        (mkStrEta true size tb off avg false).map (fun _ => ' ') ∧
      (mkStrEta true size tb off avg true).length =
        (mkStrEta true size tb off avg false).length ∧
      ∀ c ∈ mkStrEta true size tb off avg true, c = ' ') := by
  refine ⟨?_, ?_, ?_⟩
  · intro so_far total rate
    constructor
    · intro h; rw [pv__calc_eta, if_pos h]
    · intro h1 h2
      rw [pv__calc_eta, if_neg]
      push_neg
      exact ⟨by omega, h2⟩
  · unfold etaDisplayedVal bound_long
    split_ifs <;> omega
  · intro hsz
    have h1 : mkStrEta true size tb off avg true =
        (etaFormat (etaDisplayedVal size tb off avg)).map (fun _ => ' ') := by
      simp [mkStrEta, hsz]
    have h2 : mkStrEta true size tb off avg false =
        etaFormat (etaDisplayedVal size tb off avg) := by
      simp [mkStrEta, hsz]
    refine ⟨by rw [h1, h2], by rw [h1, h2]; simp, ?_⟩
    intro c hc2
    rw [h1] at hc2
    obtain ⟨a, -, rfl⟩ := List.mem_map.mp hc2
    rfl

/-- Witness for C4: at size 100, 50 done, average rate 10, the
final-update ETA string is the blanked normal string. -/
theorem C4_eta_witness :
    mkStrEta true 100 50 0 10 true = (mkStrEta true 100 50 0 10 false).map (fun _ => ' ') :=
  ((C4_eta 100 50 0 10).2.2 (by decide)).1

/-- Claim C10: with an unknown (non-positive) total size, the relative
and absolute ETA field strings stay empty, contributing no characters to
the output line, whatever the other inputs. -/
theorem C10_eta_requires_known_size (etaActive finetaActive : Bool) (size tb off : ℤ)
    (avg : ℚ) (finalUpdate : Bool) (ltime : ℤ → Option (List Char)) (hsz : size ≤ 0) :
    mkStrEta etaActive size tb off avg finalUpdate = [] ∧
    mkStrFineta finetaActive size tb off avg ltime = [] := by
  constructor
  · rw [mkStrEta, if_neg]
    rintro ⟨-, hpos⟩; omega
  · rw [mkStrFineta, if_neg]
    rintro ⟨-, hpos⟩; omega

/-- Witness for C10 at size 0 with both fields active. -/
theorem C10_eta_requires_known_size_witness :
    mkStrEta true 0 5 0 1 false = [] ∧ mkStrFineta true 0 5 0 1 (fun _ => none) = [] :=
  C10_eta_requires_known_size true true 0 5 0 1 false (fun _ => none) (by decide)

/-- Claim C8 (amended): when the new line is shorter than the previous
one and the terminal width has not shrunk (same or larger), the line is
padded with `min (deficit) 15` trailing spaces; when the width shrank, or
when the line did not shrink, no padding is applied.  (The original claim
required the width to be unchanged; the code pads whenever the width has
not decreased.) -/
theorem C8_stabilization (prev_length prev_width width : ℤ) (line : List Char) :
    ((line.length : ℤ) < prev_length → prev_width ≤ width →
      (stabilizeLine prev_length prev_width width line).1 =
        line ++ List.replicate (min (prev_length - (line.length : ℤ)) 15).toNat ' ') ∧
    (width < prev_width → (stabilizeLine prev_length prev_width width line).1 = line) ∧
    (prev_length ≤ (line.length : ℤ) →
      (stabilizeLine prev_length prev_width width line).1 = line) := by
  refine ⟨?_, ?_, ?_⟩
  · intro h1 h2
    simp only [stabilizeLine, if_pos (And.intro h1 h2)]
    rcases le_or_lt (prev_length - (line.length : ℤ)) 15 with hle | hlt
    · rw [if_neg (not_lt.mpr hle), min_eq_left hle]
    · rw [if_pos hlt, min_eq_right hlt.le]
  · intro h
    rw [stabilizeLine, if_neg]
    rintro ⟨-, hc⟩; omega
  · intro h
    rw [stabilizeLine, if_neg]
    rintro ⟨hc, -⟩; omega

/-- Claim C8 counterexample: the terminal width changed (grew from 80 to
100) between renders, yet the shorter new line is still padded with
trailing spaces, contradicting "if the terminal width changed, no
trailing padding is applied". -/
theorem C8_stabilization_counterexample :
    (100 : ℤ) ≠ 80 ∧
    (stabilizeLine 10 80 100 (List.replicate 5 'x')).1 ≠ List.replicate 5 'x' := by
  decide

/-- Witness for C8: same width, shorter line, padded by the deficit. -/
theorem C8_stabilization_witness :
    (stabilizeLine 10 80 80 (List.replicate 5 'x')).1 =
      List.replicate 5 'x' ++ List.replicate 5 ' ' := by
  have h := (C8_stabilization 10 80 80 (List.replicate 5 'x')).1 (by decide) (by decide)
  rw [h]; decide

/-- Reading back the element just written into a list. -/
theorem getD_set_self {α : Type} (l : List α) (i : ℕ) (a d : α) (h : i < l.length) :
    (l.set i a).getD i d = a := by
  induction l generalizing i with
  | nil => simp at h
  | cons x xs ih =>
    cases i with
    | zero => rfl
    | succ n =>
      rw [List.set_cons_succ, List.getD_cons_succ]
      exact ih n (by simpa using h)

/-- Claim C2: after the first observation (the stored last sample has a
positive elapsed time), the window appends a new sample exactly when the
new elapsed time is at least the last sample's elapsed time plus the
configured interval — otherwise the whole state, average included, is
unchanged.  On append, the last index advances by one modulo the buffer
length, the first index is advanced past the oldest sample exactly when
the buffer was full (the new last index landed on it), the new sample is
written in place, and the average becomes the instantaneous rate when one
sample remains (first = last) and otherwise the amount difference over
the elapsed-time difference between newest and oldest samples. -/
theorem C2_avg_rate_window (s : HistState) (tb : ℤ) (es rate : ℚ) (lastE : ℚ)
    (hne : s.history ≠ [])
    (hlen : s.history_len = s.history.length)
    (hlastE : lastE = (s.history.getD s.history_last ⟨0, 0⟩).elapsed_sec)
    (hprev : 0 < lastE) :
    (es < lastE + s.history_interval → update_history_avg_rate s tb es rate = s) ∧
    (lastE + s.history_interval ≤ es →
      ∀ last2 first2 : ℕ,
      last2 = (s.history_last + 1) % s.history_len →
      first2 = (if last2 = s.history_first then (s.history_first + 1) % s.history_len
                else s.history_first) →
      (update_history_avg_rate s tb es rate).history_last = last2 ∧
      (update_history_avg_rate s tb es rate).history_first = first2 ∧
      (update_history_avg_rate s tb es rate).history = s.history.set last2 ⟨es, tb⟩ ∧
      (first2 = last2 → (update_history_avg_rate s tb es rate).current_avg_rate = rate) ∧
      (first2 ≠ last2 → (update_history_avg_rate s tb es rate).current_avg_rate =
        ((tb - ((s.history.set last2 ⟨es, tb⟩).getD first2 ⟨0, 0⟩).total_bytes : ℤ) : ℚ) /
          (es - ((s.history.set last2 ⟨es, tb⟩).getD first2 ⟨0, 0⟩).elapsed_sec))) := by
  constructor
  · intro hlt
    rw [update_history_avg_rate, if_neg hne, if_pos ⟨hlastE ▸ hprev, hlastE ▸ hlt⟩]
  · intro hge last2 first2 hl2 hf2
    have hprev2 : 0 < (s.history.getD s.history_last ⟨0, 0⟩).elapsed_sec := hlastE ▸ hprev
    have hnapp : ¬(0 < (s.history.getD s.history_last ⟨0, 0⟩).elapsed_sec ∧
        es < (s.history.getD s.history_last ⟨0, 0⟩).elapsed_sec + s.history_interval) := by
      rintro ⟨-, hlt⟩
      rw [← hlastE] at hlt
      exact absurd hge (not_le.mpr hlt)
    have hlpos : 0 < s.history_len := by
      rw [hlen]; exact List.length_pos.mpr hne
    have hlast2lt : last2 < s.history.length := by
      rw [hl2, ← hlen]; exact Nat.mod_lt _ hlpos
    rw [update_history_avg_rate, if_neg hne, if_neg hnapp]
    simp only [hprev2, true_and, if_true, ite_true, ← hl2, ← hf2]
    refine ⟨?_, ?_⟩
    · intro heq
      rw [if_pos heq]
    · intro hne2
      rw [if_neg hne2, getD_set_self _ _ _ _ hlast2lt]

/-- A concrete window state for the C2 witness: capacity 2, one stored
sample (elapsed 1, amount 10). -/
def histC2 : HistState := ⟨[⟨1, 10⟩, ⟨0, 0⟩], 0, 0, 2, 1, 5⟩

/-- Witness for C2: observing (elapsed 3, amount 20, rate 7) appends a
second sample and the average becomes (20 - 10) / (3 - 1) = 5. -/
theorem C2_avg_rate_window_witness :
    (update_history_avg_rate histC2 20 3 7).current_avg_rate = 5 := by
  have h := (C2_avg_rate_window histC2 20 3 7 1 (by decide) (by decide) (by decide)
      (by decide)).2 (by norm_num [histC2]) 1 0 (by decide) (by decide)
  rw [h.2.2.2.2 (by decide)]
  norm_num [histC2]

/-- The fill loop of the determinate bar appends one fill character per
index when the loop bound stays within the available width. -/
theorem range_filterMap_fill (n w : ℕ) (h : n ≤ w) :
    (List.range n).filterMap (fun i => if i < w then some '=' else none) =
      List.replicate n '=' := by
  induction n with
  | zero => rfl
  | succ m ih =>
    have hm : m < w := by omega
    rw [List.range_succ, List.filterMap_append, ih (by omega), List.replicate_succ']
    simp [hm]

/-- Claim C6 (amended): for available width `w ≥ 1` and percentage
`p ≤ 100`, the determinate bar is the opening bracket, `w*p/100 - 1` fill
characters (none when the product floors to 0 or 1), one transition
marker, spaces up to interior width `w`, the closing bracket, a space and
the percentage.  (The original claim put `w*p/100` fill characters before
the marker; the code draws one fewer, the marker occupying the last cell
of the filled span.) -/
theorem C6_determinate_bar (w p : ℕ) (hw : 1 ≤ w) (hp : p ≤ 100) :
    pv__bar_known w p =
      '[' :: (List.replicate (w * p / 100 - 1) '=' ++ '>' ::
        (List.replicate (w - max (w * p / 100) 1) ' ' ++ ']' :: ' ' :: pctChars p)) := by
  have hf : w * p / 100 ≤ w := by
    have h1 : w * p ≤ w * 100 := Nat.mul_le_mul (le_refl w) hp
    have h2 : w * p / 100 ≤ w * 100 / 100 := Nat.div_le_div_right h1
    omega
  have hf1 : w * p / 100 - 1 < w := by omega
  have hmax : w * p / 100 - 1 + 1 = max (w * p / 100) 1 := by omega
  have hfill := range_filterMap_fill (w * p / 100 - 1) w (by omega)
  simp only [pv__bar_known, if_pos hf1, hfill, hmax]
  simp

/-- Claim C6 counterexample: at available width 10 and percentage 50 the
claimed layout has floor(10*50/100) = 5 fill characters then the marker,
but the code emits only 4 fill characters before the marker. -/
theorem C6_determinate_bar_counterexample :
    pv__bar_known 10 50 ≠
      '[' :: (List.replicate (10 * 50 / 100) '=' ++ '>' ::
        (List.replicate (10 - (10 * 50 / 100 + 1)) ' ' ++ ']' :: ' ' :: pctChars 50)) ∧
    (pv__bar_known 10 50).count '=' = 4 := by
  decide

/-- Witness for C6 at width 10, percentage 50. -/
theorem C6_determinate_bar_witness :
    pv__bar_known 10 50 =
      '[' :: (List.replicate (10 * 50 / 100 - 1) '=' ++ '>' ::
        (List.replicate (10 - max (10 * 50 / 100) 1) ' ' ++ ']' :: ' ' :: pctChars 50)) :=
  C6_determinate_bar 10 50 (by decide) (by decide)

/-- The compiler never produces more segments than the remaining capacity
of the fixed 100-entry segment array (the loop stops at index 99, leaving
room for the terminator): compilation cannot overrun, whatever the input. -/
theorem compileFrom_bounded : ∀ (n : ℕ) (s : List Char) (seg : ℕ), s.length ≤ n →
    (compileFrom seg s).length ≤ 99 - seg := by
  intro n
  induction n with
  | zero =>
    intro s seg hs
    have hnil : s = [] := by cases s with
      | nil => rfl
      | cons c rest => simp at hs
    subst hnil
    simp [compileFrom]
  | succ n ih =>
    intro s seg hs
    match s with
    | [] => simp [compileFrom]
    | c :: rest =>
      rw [compileFrom]
      by_cases hseg : 99 ≤ seg
      · simp [hseg]
      · rw [if_neg hseg]
        by_cases hc : c = '%'
        · rw [dif_pos hc]
          by_cases hr : rest.dropWhile Char.isDigit = []
          · rw [dif_pos hr]
            simp only [List.length_cons, List.length_nil]
            omega
          · rw [dif_neg hr]
            simp only [List.length_cons]
            have h1 : (rest.dropWhile Char.isDigit).length ≤ rest.length :=
              (List.dropWhile_suffix Char.isDigit).length_le
            have h2 : 0 < (rest.dropWhile Char.isDigit).length := List.length_pos.mpr hr
            have h3 : (rest.dropWhile Char.isDigit).tail.length ≤ n := by
              simp only [List.length_tail]
              simp only [List.length_cons] at hs
              omega
            have := ih _ (seg + 1) h3
            omega
        · rw [dif_neg hc]
          simp only [List.length_cons]
          have h1 : (rest.dropWhile (fun x => x ≠ '%')).length ≤ rest.length :=
            (List.dropWhile_suffix (fun x => x ≠ '%')).length_le
          have h2 : (c :: rest).dropWhile (fun x => x ≠ '%') =
              rest.dropWhile (fun x => x ≠ '%') := by
            rw [List.dropWhile_cons]
            simp [hc]
          have h3 : ((c :: rest).dropWhile (fun x => x ≠ '%')).length ≤ n := by
            rw [h2]
            simp only [List.length_cons] at hs
            omega
          have := ih _ (seg + 1) h3
          omega

/-- Claim C9: a `%` directly followed by an unrecognized non-digit letter
compiles to the two-character literal `%<letter>` (and compilation then
continues after the letter); a bare `%` at the end of the string compiles
to a single literal `%`; and compilation is total and never overruns the
segment array: from start index `seg` it produces at most `99 - seg`
segments on any input whatsoever. -/
theorem C9_format_compiler :
    (∀ (seg : ℕ) (c : Char) (rest : List Char), seg < 99 → ¬ c.isDigit →
      c ∉ ['p', 't', 'e', 'I', 'A', 'r', 'a', 'b', 'T', 'N', '%'] →
      compileFrom seg ('%' :: c :: rest) =
        FmtSeg.lit ['%', c] :: compileFrom (seg + 1) rest) ∧
    (∀ seg : ℕ, seg < 99 → compileFrom seg ['%'] = [FmtSeg.lit ['%']]) ∧
    (∀ (s : List Char) (seg : ℕ), (compileFrom seg s).length ≤ 99 - seg) := by
  refine ⟨?_, ?_, ?_⟩
  · intro seg c rest hseg hdig hmem
    simp only [List.mem_cons, List.not_mem_nil, or_false, not_or] at hmem
    obtain ⟨h1, h2, h3, h4, h5, h6, h7, h8, h9, h10, h11⟩ := hmem
    have hdigf : c.isDigit = false := by
      cases hdf : c.isDigit with
      | false => rfl
      | true => exact absurd hdf hdig
    have hdw : (c :: rest).dropWhile Char.isDigit = c :: rest := by
      rw [List.dropWhile_cons, hdigf]; simp
    have htw : (c :: rest).takeWhile Char.isDigit = [] := by
      rw [List.takeWhile_cons, hdigf]; simp
    rw [compileFrom, if_neg (by omega : ¬ 99 ≤ seg), dif_pos rfl]
    simp only [hdw, htw]
    rw [dif_neg (by simp : ¬ (c :: rest = []))]
    simp only [List.head_cons, List.tail_cons]
    have hdir : directiveSeg [] c = FmtSeg.lit ['%', c] := by
      simp only [directiveSeg, if_neg h1, if_neg h2, if_neg h3, if_neg h4, if_neg h5,
        if_neg h6, if_neg h7, if_neg h8, if_neg h9, if_neg h10, if_neg h11]
      rfl
    rw [hdir]
  · intro seg hseg
    rw [compileFrom, if_neg (by omega : ¬ 99 ≤ seg)]
    rfl
  · intro s seg
    exact compileFrom_bounded s.length s seg le_rfl

/-- Witness for C9: compiling the string `%zq` at segment index 0 yields
the two-character literal segment `%z` followed by the compilation of the
remaining text. -/
theorem C9_format_compiler_witness :
    compileFrom 0 ['%', 'z', 'q'] = FmtSeg.lit ['%', 'z'] :: compileFrom 1 ['q'] :=
  C9_format_compiler.1 0 'z' ['q'] (by decide) (by decide) (by decide)

/-- The display length of a segment is never negative. -/
theorem segDisplayLen_nonneg (g : OutSeg) : 0 ≤ segDisplayLen g := by
  unfold segDisplayLen
  split_ifs with h
  · exact le_of_lt h
  · positivity

/-- Under the compile-time invariant that a positive stored length never
exceeds the stored text, a whole emitted segment has exactly its display
length. -/
theorem segEmit_length (g : OutSeg) (hg : 0 < g.length → g.length ≤ (g.text.length : ℤ)) :
    ((segEmit g).length : ℤ) = segDisplayLen g := by
  unfold segEmit segDisplayLen
  split_ifs with h
  · have h2 := hg h
    rw [List.length_take]
    push_cast
    omega
  · rfl

/-- The output-buffer (re)allocation of `pv__format` (display.c lines
583-605): a live buffer smaller than twice the terminal width is freed,
and a missing buffer is then allocated with size `2*width + 80` plus the
name length.  A missing buffer is encoded as size 0, matching the
state's NULL-buffer/zero-size pairing. -/
def displayBufferSize (cur width namelen : ℤ) : ℤ :=
  let cur2 := if cur ≠ 0 ∧ cur < width * 2 then 0 else cur
  if cur2 = 0 then 2 * width + 80 + namelen else cur2

/-- Claim C7: segments are concatenated in compiled order, and a segment
that would overflow either the output buffer's remaining capacity or the
terminal width halts assembly, omitting that segment and all following
ones entirely, with nothing partially emitted.  The first conjunct
establishes the reachable-state invariant that makes this true: the
buffer the assembly loop runs against always satisfies
`width < bufsize - 2` (a fresh buffer has size `2*width + 80 + namelen`,
and a retained one has size at least `2*width` and, having itself been
allocated this way earlier, at least 80 — the second conjunct propagates
that lower bound to later renders).  Under the invariant, a segment that
overflows the capacity is truncated to `bufsize - 2 - done`, which still
exceeds the width budget, so the width check stops the loop before
anything of it is copied. -/
theorem C7_line_assembly :
    (∀ cur width namelen : ℤ, cur = 0 ∨ 80 ≤ cur → 0 ≤ width → 0 ≤ namelen →
      width < displayBufferSize cur width namelen - 2 ∧
      80 ≤ displayBufferSize cur width namelen) ∧
    (∀ bufsize width : ℤ, width < bufsize - 2 →
      ∀ (segs : List OutSeg) (acc : List Char),
      (∀ g ∈ segs, 0 < g.length → g.length ≤ (g.text.length : ℤ)) →
      (∀ k : ℕ, (acc.length : ℤ) + ((segs.take k).map segDisplayLen).sum ≤ width) →
      assembleLoop bufsize width segs acc = acc ++ segs.flatMap segEmit) ∧
    (∀ bufsize width : ℤ, width < bufsize - 2 →
      ∀ (g : OutSeg) (rest : List OutSeg) (acc : List Char),
      1 ≤ segDisplayLen g →
      (bufsize - 2 < segDisplayLen g + (acc.length : ℤ) ∨
        width < segDisplayLen g + (acc.length : ℤ)) →
      assembleLoop bufsize width (g :: rest) acc = acc) := by
  refine ⟨?_, ?_, ?_⟩
  · intro cur width namelen hcur hw hn
    simp only [displayBufferSize]
    split_ifs <;> constructor <;> omega
  · intro bufsize width hbw segs
    induction segs with
    | nil =>
      intro acc hinv hw
      simp [assembleLoop]
    | cons g rest ih =>
      intro acc hinv hw
      have hg := hinv g (List.mem_cons_self g rest)
      have hinv2 : ∀ x ∈ rest, 0 < x.length → x.length ≤ (x.text.length : ℤ) :=
        fun x hx => hinv x (List.mem_cons_of_mem g hx)
      simp only [assembleLoop]
      by_cases hz : segDisplayLen g = 0
      · rw [if_pos hz]
        have hl := segEmit_length g hg
        rw [hz] at hl
        have hemit : segEmit g = [] := List.length_eq_zero.mp (by omega)
        have hw2 : ∀ k : ℕ,
            (acc.length : ℤ) + ((rest.take k).map segDisplayLen).sum ≤ width := by
          intro k
          have hk := hw (k + 1)
          rw [List.take_succ_cons, List.map_cons, List.sum_cons, hz] at hk
          linarith
        rw [ih acc hinv2 hw2]
        rw [List.flatMap_cons, hemit, List.nil_append]
      · rw [if_neg hz]
        have hwg : segDisplayLen g + (acc.length : ℤ) ≤ width := by
          have hk := hw 1
          simp only [List.take_succ_cons, List.take_zero, List.map_cons, List.map_nil,
            List.sum_cons, List.sum_nil, add_zero] at hk
          linarith
        have hcapg : ¬ (bufsize - 2 < segDisplayLen g + (acc.length : ℤ)) := by omega
        rw [if_neg hcapg]
        rw [if_neg (by
          have := segDisplayLen_nonneg g
          omega : ¬ segDisplayLen g < 1)]
        rw [if_neg (not_lt.mpr hwg)]
        have hemit : g.text.take (segDisplayLen g).toNat = segEmit g := by
          unfold segEmit segDisplayLen
          split_ifs with h
          · rfl
          · simp
        rw [hemit]
        have hlen2 : ((acc ++ segEmit g).length : ℤ) =
            (acc.length : ℤ) + segDisplayLen g := by
          rw [List.length_append]
          push_cast
          rw [segEmit_length g hg]
        have hw2 : ∀ k : ℕ, (((acc ++ segEmit g).length : ℤ)) +
            ((rest.take k).map segDisplayLen).sum ≤ width := by
          intro k
          have hk := hw (k + 1)
          rw [List.take_succ_cons, List.map_cons, List.sum_cons] at hk
          rw [hlen2]
          linarith
        rw [ih _ hinv2 hw2, List.flatMap_cons, List.append_assoc]
  · intro bufsize width hbw g rest acc h1 hover
    simp only [assembleLoop]
    rw [if_neg (by omega : ¬ segDisplayLen g = 0)]
    by_cases hcap : bufsize - 2 < segDisplayLen g + (acc.length : ℤ)
    · rw [if_pos hcap]
      by_cases hmin : bufsize - (acc.length : ℤ) - 2 < 1
      · rw [if_pos hmin]
      · rw [if_neg hmin]
        rw [if_pos
          (by omega : width < bufsize - (acc.length : ℤ) - 2 + (acc.length : ℤ))]
    · rw [if_neg hcap]
      rw [if_neg (by omega : ¬ segDisplayLen g < 1)]
      have hwid : width < segDisplayLen g + (acc.length : ℤ) := by
        rcases hover with hc | hw2
        · omega
        · exact hw2
      rw [if_pos hwid]

/-- Witness for C7: with the reachable buffer invariant (capacity 200,
width 2), a 3-character segment that does not fit the terminal width is
omitted entirely, leaving the line as it was. -/
theorem C7_line_assembly_witness :
    assembleLoop 200 2 [⟨['a', 'b', 'c'], 0⟩] [] = [] :=
  C7_line_assembly.2.2 200 2 (by decide) ⟨['a', 'b', 'c'], 0⟩ [] [] (by decide)
    (Or.inr (by decide))

/-- Invariant of the dividing loop: starting `k` below the table top with
`v ≤ cutoff * rbase^k` and enough fuel, the loop ends at or below the
cutoff, at a positive value, without moving the index down, never past
the table top; and either it did nothing or the final value exceeds
`cutoff / rbase` and the index strictly advanced. -/
theorem upLoop_spec (rbase cutoff : ℚ) (hb : 1 < rbase) :
    ∀ (fuel k i : ℕ) (v : ℚ) (pfx : Char), i + k = 16 → k ≤ fuel → 0 < v →
    v ≤ cutoff * rbase ^ k →
    (upLoop rbase cutoff fuel v i pfx).1 ≤ cutoff ∧
    0 < (upLoop rbase cutoff fuel v i pfx).1 ∧
    i ≤ (upLoop rbase cutoff fuel v i pfx).2.1 ∧
    (upLoop rbase cutoff fuel v i pfx).2.1 ≤ 16 ∧
    ((upLoop rbase cutoff fuel v i pfx).1 = v ∧ (upLoop rbase cutoff fuel v i pfx).2.1 = i ∨
      (cutoff / rbase < (upLoop rbase cutoff fuel v i pfx).1 ∧
        i < (upLoop rbase cutoff fuel v i pfx).2.1)) := by
  intro fuel
  induction fuel with
  | zero =>
    intro k i v pfx hik hkf hv hvc
    have hk0 : k = 0 := by omega
    subst hk0
    rw [pow_zero, mul_one] at hvc
    simp only [upLoop]
    exact ⟨hvc, hv, le_rfl, by omega, Or.inl ⟨trivial, trivial⟩⟩
  | succ f ih =>
    intro k i v pfx hik hkf hv hvc
    have hsl : siTable.length = 17 := rfl
    simp only [upLoop]
    by_cases hcond : cutoff < v ∧ i + 1 < siTable.length
    · rw [if_pos hcond]
      have hi15 : i + 1 < 17 := by rw [← hsl]; exact hcond.2
      obtain ⟨k2, rfl⟩ : ∃ k2, k = k2 + 1 := ⟨k - 1, by omega⟩
      have hrpos : 0 < rbase := lt_trans one_pos hb
      have hvc2 : v / rbase ≤ cutoff * rbase ^ k2 := by
        rw [div_le_iff₀ hrpos]
        calc v ≤ cutoff * rbase ^ (k2 + 1) := hvc
        _ = cutoff * rbase ^ k2 * rbase := by ring
      have h2 := ih k2 (i + 1) (v / rbase) (siTable.getD (i + 1) ' ')
        (by omega) (by omega) (by positivity) hvc2
      refine ⟨h2.1, h2.2.1, le_trans (Nat.le_succ i) h2.2.2.1, h2.2.2.2.1, Or.inr ?_⟩
      rcases h2.2.2.2.2 with ⟨hev, hei⟩ | ⟨hgt, hgt2⟩
      · refine ⟨?_, ?_⟩
        · rw [hev]
          exact (div_lt_div_iff_of_pos_right hrpos).mpr hcond.1
        · rw [hei]
          exact Nat.lt_succ_self i
      · exact ⟨hgt, lt_trans (Nat.lt_succ_self i) hgt2⟩
    · rw [if_neg hcond]
      by_cases hv2 : cutoff < v
      · exfalso
        have hi16 : ¬ i + 1 < 17 := by
          intro hlt
          exact hcond ⟨hv2, by rw [hsl]; exact hlt⟩
        have hk0 : k = 0 := by omega
        subst hk0
        rw [pow_zero, mul_one] at hvc
        exact absurd hvc (not_le.mpr hv2)
      · push_neg at hv2
        exact ⟨hv2, hv, le_rfl, show i ≤ 16 by omega, Or.inl ⟨rfl, rfl⟩⟩

/-- Invariant of the multiplying loop: with `1 ≤ v * rbase^i` and fuel at
least `i`, the loop ends at or above 1, and either it did nothing or the
final value is below `rbase`. -/
theorem downLoop_spec (rbase : ℚ) (hb : 1 ≤ rbase) :
    ∀ (fuel i : ℕ) (v : ℚ) (pfx : Char), i ≤ fuel → 1 ≤ v * rbase ^ i →
    1 ≤ (downLoop rbase fuel v i pfx).1 ∧
    ((downLoop rbase fuel v i pfx).1 = v ∨ (downLoop rbase fuel v i pfx).1 < rbase) := by
  intro fuel
  induction fuel with
  | zero =>
    intro i v pfx hif hv
    have hi0 : i = 0 := by omega
    subst hi0
    rw [pow_zero, mul_one] at hv
    simp only [downLoop]
    exact ⟨hv, Or.inl trivial⟩
  | succ f ih =>
    intro i v pfx hif hv
    simp only [downLoop]
    by_cases hcond : v < 1 ∧ 1 ≤ i
    · rw [if_pos hcond]
      obtain ⟨i2, rfl⟩ : ∃ i2, i = i2 + 1 := ⟨i - 1, by omega⟩
      have hrpos : 0 < rbase := lt_of_lt_of_le one_pos hb
      have hv2 : 1 ≤ (v * rbase) * rbase ^ i2 := by
        calc (1 : ℚ) ≤ v * rbase ^ (i2 + 1) := hv
        _ = (v * rbase) * rbase ^ i2 := by ring
      simp only [Nat.add_sub_cancel]
      have h2 := ih i2 (v * rbase) (siTable.getD i2 ' ') (by omega) hv2
      refine ⟨h2.1, Or.inr ?_⟩
      rcases h2.2 with hev | hlt
      · rw [hev]
        calc v * rbase < 1 * rbase := mul_lt_mul_of_pos_right hcond.1 hrpos
        _ = rbase := one_mul rbase
      · exact hlt
    · rw [if_neg hcond]
      by_cases hv1 : v < 1
      · exfalso
        have hi0 : i = 0 := by
          by_contra hne
          exact hcond ⟨hv1, by omega⟩
        subst hi0
        rw [pow_zero, mul_one] at hv
        exact absurd hv (not_le.mpr hv1)
      · push_neg at hv1
        exact ⟨hv1, Or.inl rfl⟩

/-- Claim C5 (amended): for a positive magnitude whose scan stays inside
the prefix table (at ratio 1000 or 1024: `1 ≤ v * r^8` keeps the
descending walk from running off the small end, `v ≤ r^8 * (r * 0.97)`
keeps the ascending walk from running off the large end), the scaled
magnitude lands in the half-open interval `[1, r)` — not `[1, r*0.97)` as
originally claimed, because a value in `(r*0.97, r)` is divided once,
drops below 1, and is multiplied straight back.  Zero magnitude is
returned unchanged with a blank prefix. -/
theorem C5_si_scaler (rbase v : ℚ) (hr : rbase = 1000 ∨ rbase = 1024)
    (hv : 0 < v) (hlo : 1 ≤ v * rbase ^ 8)
    (hhi : v ≤ rbase ^ 8 * (rbase * (97 / 100))) :
    (1 ≤ (pv__si_scale rbase v).1 ∧ (pv__si_scale rbase v).1 < rbase) ∧
    ((pv__si_scale rbase 0).1 = 0 ∧ (pv__si_scale rbase 0).2 = ' ') := by
  have hb : (1000 : ℚ) ≤ rbase := by
    rcases hr with rfl | rfl <;> norm_num
  have hb1 : (1 : ℚ) < rbase := lt_of_lt_of_le (by norm_num) hb
  have hrpos : (0 : ℚ) < rbase := lt_trans one_pos hb1
  have hsl : siTable.length = 17 := rfl
  constructor
  · have hvne : v ≠ 0 := ne_of_gt hv
    simp only [pv__si_scale, if_neg hvne]
    have hup := upLoop_spec rbase (rbase * (97 / 100)) hb1 siTable.length 8 8 v ' '
      (by norm_num) (by rw [hsl]; norm_num) hv
      (by calc v ≤ rbase ^ 8 * (rbase * (97 / 100)) := hhi
          _ = (rbase * (97 / 100)) * rbase ^ 8 := by ring)
    set u := upLoop rbase (rbase * (97 / 100)) siTable.length v 8 ' ' with hu
    obtain ⟨hu1, hu2, hu3, hu4, hu5⟩ := hup
    have hpre : 1 ≤ u.1 * rbase ^ u.2.1 := by
      rcases hu5 with ⟨hev, hei⟩ | ⟨hgt, hgt2⟩
      · rw [hev, hei]; exact hlo
      · have h97 : (97 / 100 : ℚ) < u.1 := by
          have hcd : rbase * (97 / 100) / rbase = (97 / 100 : ℚ) :=
            mul_div_cancel_left₀ _ (ne_of_gt hrpos)
          rwa [hcd] at hgt
        have hp1 : (1000 : ℚ) ≤ rbase ^ u.2.1 := by
          calc (1000 : ℚ) ≤ rbase := hb
          _ ≤ rbase ^ u.2.1 := le_self_pow₀ (le_of_lt hb1) (by omega)
        calc (1 : ℚ) ≤ (97 / 100) * 1000 := by norm_num
        _ ≤ u.1 * rbase ^ u.2.1 :=
            mul_le_mul (le_of_lt h97) hp1 (by norm_num) (le_of_lt hu2)
    have hdown := downLoop_spec rbase (le_of_lt hb1) siTable.length u.2.1 u.1 u.2.2
      (by omega) hpre
    refine ⟨hdown.1, ?_⟩
    rcases hdown.2 with hev | hlt
    · rw [hev]
      calc u.1 ≤ rbase * (97 / 100) := hu1
      _ < rbase := mul_lt_of_lt_one_right hrpos (by norm_num)
    · exact hlt
  · constructor
    · rw [pv__si_scale, if_pos rfl]
    · rw [pv__si_scale, if_pos rfl]

/-- Claim C5 counterexample: at ratio 1000 and positive magnitude 980 —
nowhere near the table bounds — the scaler divides once (to 0.98, below
one) and multiplies straight back, returning 980, which lies outside the
claimed half-open interval [1.0, 1000*0.97). -/
theorem C5_si_scaler_counterexample :
    (pv__si_scale 1000 980).1 = 980 ∧
    ¬(1 ≤ (pv__si_scale 1000 980).1 ∧ (pv__si_scale 1000 980).1 < 1000 * (97 / 100)) := by
  have h : (pv__si_scale 1000 980).1 = 980 := by
    norm_num [pv__si_scale, upLoop, downLoop, siTable]
  refine ⟨h, ?_⟩
  rw [h]
  norm_num

/-- Witness for C5: magnitude 5 at ratio 1000 stays in [1, 1000). -/
theorem C5_si_scaler_witness :
    1 ≤ (pv__si_scale 1000 5).1 ∧ (pv__si_scale 1000 5).1 < 1000 :=
  (C5_si_scaler 1000 5 (Or.inl rfl) (by norm_num) (by norm_num) (by norm_num)).1

end PV
